import Mathlib

/-!
Verification development for the go-cbor library (RFC 8949 I/O).

The Go sources are embedded shallowly: byte slices become lists of
natural numbers, the stateful reader becomes a function from the
delivered byte stream to a result carrying the produced object, the
error value, and the bytes left in the source, and code that can panic
returns an Option or Except value.
-/

namespace GoCbor

/-- Go byte slices are modelled as lists of natural numbers below 256. -/
abbrev Bytes := List Nat

/-- Modelled from the spec: the encode side of the octet codec provided
by the external go-endian package (EncodeUint16/32/64), which is not in
the repository. `beBytes w v` is the w-octet big-endian encoding of v. -/
def beBytes (w v : Nat) : Bytes :=
  (List.range w).map (fun i => v / 256 ^ (w - 1 - i) % 256)

/-- Big-endian value of a list of octets, most significant first.  This
is the decode side of the octet codec applied to a slice of exactly the
intended width. -/
def beVal (b : Bytes) : Nat := b.foldl (fun acc x => acc * 256 + x) 0

/-- Modelled from the spec: the decode side of the octet codec
(DecodeUint16/32/64) requires a slice at least as long as the width and
ignores octets beyond the width; a shorter slice is out of contract and
panics (indexes past the end), giving none. -/
def endianDecode (w : Nat) (b : Bytes) : Option Nat :=
  if b.length < w then none else some (beVal (b.take w))

/-- Object.Concatenate from src/cbor.go.  When the receiver `a` is empty
the argument is returned; when the argument `b` is empty the second
branch returns `b` as well (not `a`); otherwise the copier builds the
byte concatenation. -/
def concatGo (a b : Bytes) : Bytes :=
  if a.length = 0 then b
  else if b.length = 0 then b
  else a ++ b

/-- Errors produced by Object.Read: the Break sentinel, the EOF of the
underlying source (io.EOF, which the spec names MissingTag when Read is
called on an empty source), ErrorMissingData, ErrorUnrecognizedTag, the
distinct short-read message of the 0xD8-0xDB arms, exhaustion of the
model fuel, and the ErrorWrapRead annotation wrapping a nested error. -/
inductive Err where
  | breakE
  | eofE
  | missingData
  | unrecognizedTag
  | shortHeader
  | fuelOut
  | wrap (e : Err)
deriving DecidableEq, Repr

/-- Result of one Object.Read call: the returned Object, the returned
error (none on success), and the bytes still held by the source. -/
structure RRes where
  obj : Bytes
  err : Option Err
  rest : Bytes
deriving DecidableEq, Repr

/-- Outcome of r.Read(make([]byte,z)) against a bytes.Buffer holding
`s`: a zero-length request returns immediately with no error, an empty
buffer yields io.EOF, and a buffer holding fewer than z octets delivers
everything it has, producing a short count with a nil error. -/
inductive RecvN where
  | ok (d rest : Bytes)
  | eofR
  | shortR
deriving DecidableEq, Repr

def recvN (z : Nat) (s : Bytes) : RecvN :=
  if z = 0 then .ok [] s
  else if s.length = 0 then .eofR
  else if s.length < z then .shortR
  else .ok (s.take z) (s.drop z)

/-- The shape of each arm of the Object.Read tag switch in src/cbor.go. -/
inductive TClass where
  | imm
  | fixe (w : Nat)
  | lenPay (w : Nat)
  | lenPayDup (w : Nat)
  | kidsImm (m : Nat)
  | kidsLen (w : Nat)
  | pairsImm (m : Nat)
  | pairsLen (w : Nat)
  | seqKids
  | seqPairs
  | oneKid
  | tagNum (w : Nat)
  | brk
  | unrec
deriving DecidableEq, Repr

/-- Transcription of the case ranges of the Object.Read switch.
imm: one-byte items (0x00-0x17, 0x20-0x37, 0xC6-0xD4, 0xE0-0xF7).
fixe w: w octets follow and are appended (0x18-0x1B, 0x40-0x57 with
w = t - 0x40, 0x60-0x77 with w = t - 0x60, 0xF8-0xFB).
lenPay w: w length octets then that many payload octets (0x38-0x3B,
0x58-0x5B, 0x78, 0x79).
lenPayDup w: as lenPay, but the source appends the length octets a
second time in place of the payload (the 0x7A and 0x7B arms).
kidsImm m / kidsLen w: definite-length arrays.  pairsImm m /
pairsLen w: definite-length maps.  seqKids: break-terminated streams
(0x5F, 0x7F, 0x9F).  seqPairs: break-terminated map (0xBF).
oneKid: one nested item follows (0xC0-0xC5, 0xD5-0xD7).
tagNum w: w tag-number octets then one nested item (0xD8-0xDB).
brk: the 0xFF stop code.  unrec: the default arm. -/
def classify (t : Nat) : TClass :=
  if t ≤ 0x17 then .imm
  else if t = 0x18 then .fixe 1
  else if t = 0x19 then .fixe 2
  else if t = 0x1A then .fixe 4
  else if t = 0x1B then .fixe 8
  else if 0x20 ≤ t ∧ t ≤ 0x37 then .imm
  else if t = 0x38 then .lenPay 1
  else if t = 0x39 then .lenPay 2
  else if t = 0x3A then .lenPay 4
  else if t = 0x3B then .lenPay 8
  else if 0x40 ≤ t ∧ t ≤ 0x57 then .fixe (t - 0x40)
  else if t = 0x58 then .lenPay 1
  else if t = 0x59 then .lenPay 2
  else if t = 0x5A then .lenPay 4
  else if t = 0x5B then .lenPay 8
  else if t = 0x5F then .seqKids
  else if 0x60 ≤ t ∧ t ≤ 0x77 then .fixe (t - 0x60)
  else if t = 0x78 then .lenPay 1
  else if t = 0x79 then .lenPay 2
  else if t = 0x7A then .lenPayDup 4
  else if t = 0x7B then .lenPayDup 8
  else if t = 0x7F then .seqKids
  else if 0x80 ≤ t ∧ t ≤ 0x97 then .kidsImm (t - 0x80)
  else if t = 0x98 then .kidsLen 1
  else if t = 0x99 then .kidsLen 2
  else if t = 0x9A then .kidsLen 4
  else if t = 0x9B then .kidsLen 8
  else if t = 0x9F then .seqKids
  else if 0xA0 ≤ t ∧ t ≤ 0xB7 then .pairsImm (t - 0xA0)
  else if t = 0xB8 then .pairsLen 1
  else if t = 0xB9 then .pairsLen 2
  else if t = 0xBA then .pairsLen 4
  else if t = 0xBB then .pairsLen 8
  else if t = 0xBF then .seqPairs
  else if 0xC0 ≤ t ∧ t ≤ 0xC5 then .oneKid
  else if 0xC6 ≤ t ∧ t ≤ 0xD4 then .imm
  else if 0xD5 ≤ t ∧ t ≤ 0xD7 then .oneKid
  else if t = 0xD8 then .tagNum 1
  else if t = 0xD9 then .tagNum 2
  else if t = 0xDA then .tagNum 4
  else if t = 0xDB then .tagNum 8
  else if 0xE0 ≤ t ∧ t ≤ 0xF3 then .imm
  else if 0xF4 ≤ t ∧ t ≤ 0xF7 then .imm
  else if t = 0xF8 then .fixe 1
  else if t = 0xF9 then .fixe 2
  else if t = 0xFA then .fixe 4
  else if t = 0xFB then .fixe 8
  else if t = 0xFF then .brk
  else .unrec

/-- The definite-count child loop of the array arms of Object.Read:
each child error is wrapped, each child object is concatenated. -/
def readKids (child : Bytes → RRes) : Nat → Bytes → Bytes → RRes
  | 0, acc, s => ⟨acc, none, s⟩
  | m + 1, acc, s =>
    match child s with
    | ⟨o, none, r⟩ => readKids child m (concatGo acc o) r
    | ⟨_, some e, r⟩ => ⟨[], some (.wrap e), r⟩

/-- The definite-count pair loop of the map arms of Object.Read. -/
def readPairs (child : Bytes → RRes) : Nat → Bytes → Bytes → RRes
  | 0, acc, s => ⟨acc, none, s⟩
  | m + 1, acc, s =>
    match child s with
    | ⟨_, some e, r⟩ => ⟨[], some (.wrap e), r⟩
    | ⟨ao, none, ar⟩ =>
      match child ar with
      | ⟨_, some e, r⟩ => ⟨[], some (.wrap e), r⟩
      | ⟨bo, none, br⟩ => readPairs child m (concatGo (concatGo acc ao) bo) br

/-- The break-terminated child loop of the 0x5F, 0x7F and 0x9F arms,
iteration-bounded by fuel (each continuing iteration consumes at least
one source octet, so a fuel of source length plus one is never spent). -/
def readSeq (child : Bytes → RRes) : Nat → Bytes → Bytes → RRes
  | 0, _, s => ⟨[], some .fuelOut, s⟩
  | k + 1, acc, s =>
    match child s with
    | ⟨o, none, r⟩ => readSeq child k (concatGo acc o) r
    | ⟨_, some .breakE, r⟩ => ⟨acc, none, r⟩
    | ⟨_, some e, r⟩ => ⟨[], some (.wrap e), r⟩

/-- The break-terminated pair loop of the 0xBF arm: Break terminates
cleanly only on a key position; on a value position it is wrapped. -/
def readSeqPairs (child : Bytes → RRes) : Nat → Bytes → Bytes → RRes
  | 0, _, s => ⟨[], some .fuelOut, s⟩
  | k + 1, acc, s =>
    match child s with
    | ⟨_, some .breakE, r⟩ => ⟨acc, none, r⟩
    | ⟨_, some e, r⟩ => ⟨[], some (.wrap e), r⟩
    | ⟨ao, none, ar⟩ =>
      match child ar with
      | ⟨_, some e, r⟩ => ⟨[], some (.wrap e), r⟩
      | ⟨bo, none, br⟩ => readSeqPairs child k (concatGo (concatGo acc ao) bo) br

/-- The body of Object.Read after the tag octet `t` has been taken from
the source, leaving `s`.  `child` is the recursive call used for nested
items.  Each arm mirrors the corresponding switch arm of src/cbor.go:
the object accumulates through Object.Concatenate, short reads of
length or payload octets give ErrorMissingData, an exhausted source
gives the wrapped io.EOF, and child errors are wrapped. -/
def readBody (child : Bytes → RRes) (t : Nat) (s : Bytes) : RRes :=
  match classify t with
  | .imm => ⟨[t], none, s⟩
  | .fixe w =>
    match recvN w s with
    | .ok d s1 => ⟨concatGo [t] d, none, s1⟩
    | .eofR => ⟨[], some (.wrap .eofE), []⟩
    | .shortR => ⟨[], some .missingData, []⟩
  | .lenPay w =>
    match recvN w s with
    | .eofR => ⟨[], some (.wrap .eofE), []⟩
    | .shortR => ⟨[], some .missingData, []⟩
    | .ok d s1 =>
      match recvN (beVal d) s1 with
      | .eofR => ⟨[], some (.wrap .eofE), []⟩
      | .shortR => ⟨[], some .missingData, []⟩
      | .ok p s2 => ⟨concatGo (concatGo [t] d) p, none, s2⟩
  | .lenPayDup w =>
    match recvN w s with
    | .eofR => ⟨[], some (.wrap .eofE), []⟩
    | .shortR => ⟨[], some .missingData, []⟩
    | .ok d s1 =>
      match recvN (beVal d) s1 with
      | .eofR => ⟨[], some (.wrap .eofE), []⟩
      | .shortR => ⟨[], some .missingData, []⟩
      | .ok _ s2 => ⟨concatGo (concatGo [t] d) d, none, s2⟩
  | .kidsImm m => readKids child m [t] s
  | .kidsLen w =>
    match recvN w s with
    | .eofR => ⟨[], some (.wrap .eofE), []⟩
    | .shortR => ⟨[], some .missingData, []⟩
    | .ok d s1 => readKids child (beVal d) (concatGo [t] d) s1
  | .pairsImm m => readPairs child m [t] s
  | .pairsLen w =>
    match recvN w s with
    | .eofR => ⟨[], some (.wrap .eofE), []⟩
    | .shortR => ⟨[], some .missingData, []⟩
    | .ok d s1 => readPairs child (beVal d) (concatGo [t] d) s1
  | .seqKids => readSeq child (s.length + 1) [t] s
  | .seqPairs => readSeqPairs child (s.length + 1) [t] s
  | .oneKid =>
    match child s with
    | ⟨o, none, r⟩ => ⟨concatGo [t] o, none, r⟩
    | ⟨_, some e, r⟩ => ⟨[], some (.wrap e), r⟩
  | .tagNum w =>
    match recvN w s with
    | .eofR => ⟨[], some (.wrap .eofE), []⟩
    | .shortR => ⟨[], some .shortHeader, []⟩
    | .ok d s1 =>
      match child s1 with
      | ⟨o, none, r⟩ => ⟨concatGo (concatGo [t] d) o, none, r⟩
      | ⟨_, some e, r⟩ => ⟨[], some (.wrap e), r⟩
  | .brk => ⟨[], some .breakE, s⟩
  | .unrec => ⟨[], some .unrecognizedTag, s⟩

/-- Fuelled Object.Read over a bytes.Buffer source: an empty source
yields io.EOF (the MissingTag condition); otherwise the tag octet is
taken and dispatched.  One unit of fuel is spent per nesting level;
nesting consumes at least one octet per level, so a fuel of source
length plus one is never exhausted on a run the Go code completes. -/
def readF : Nat → Bytes → RRes
  | 0, s => ⟨[], some .fuelOut, s⟩
  | fuel + 1, s =>
    match s with
    | [] => ⟨[], some .eofE, []⟩
    | t :: s1 => readBody (readF fuel) t s1

/-- Object.Read applied to a bytes.Buffer delivering `s`. -/
def read (s : Bytes) : RRes := readF (s.length + 1) s

/-- Object.Write: emits exactly the octets of the object to the sink. -/
def write (o : Bytes) : Bytes := o

/-- The Go interface values handled by cbor.Encode and produced by
Object.Decode.  Fixed-width integers carry their Go value; iv, uv and
uptr are the platform-width int, uint and uintptr of a 64-bit build;
str carries the UTF-8 octets of a Go string; gmap models map of string
to any as an association list in insertion order (Go map iteration
order is unspecified; this model fixes list order); obj is a value
whose dynamic type is cbor.Object rather than a plain byte slice; brk
is the Break error value returned by Decode of 0xFF; other stands for
any value of a kind the encoder does not recognize. -/
inductive GoAny where
  | vnil
  | u8 (n : Nat)
  | u16 (n : Nat)
  | u32 (n : Nat)
  | u64 (n : Nat)
  | i8 (n : Int)
  | i16 (n : Int)
  | i32 (n : Int)
  | i64 (n : Int)
  | iv (n : Int)
  | uv (n : Nat)
  | uptr (n : Nat)
  | bytes (b : Bytes)
  | str (b : Bytes)
  | arr (l : List GoAny)
  | gmap (l : List (Bytes × GoAny))
  | bool (x : Bool)
  | big (n : Nat)
  | f32 (bits : Nat)
  | f64 (bits : Nat)
  | obj (b : Bytes)
  | brk
  | other
deriving Repr

/-- The byte-string and text arms of cbor.Encode: Define the major,
Refine by the payload length, then switch on the resulting tag to
append the length octets of the wide forms, then the payload, all
through Object.Concatenate.  `base` is 0x40 for blobs, 0x60 for text. -/
def encodeSized (base : Nat) (b : Bytes) : Bytes :=
  let z := b.length
  if z ≤ 0x17 then concatGo [base + z] b
  else if z ≤ 0xFF then concatGo (concatGo [base + 0x18] [z]) b
  else if z ≤ 0xFFFF then concatGo (concatGo [base + 0x19] (beBytes 2 z)) b
  else if z ≤ 0xFFFFFFFF then concatGo (concatGo [base + 0x1A] (beBytes 4 z)) b
  else concatGo (concatGo [base + 0x1B] (beBytes 8 z)) b

/-- The array and map arms of cbor.Encode up to the child loop: Define
the major (base 0x80 or 0xA0), Refine by the element count, and append
the count octets of the wide forms. -/
def countPrefix (base : Nat) (z : Nat) : Bytes :=
  if z ≤ 0x17 then [base + z]
  else if z ≤ 0xFF then concatGo [base + 0x18] [z]
  else if z ≤ 0xFFFF then concatGo [base + 0x19] (beBytes 2 z)
  else if z ≤ 0xFFFFFFFF then concatGo [base + 0x1A] (beBytes 4 z)
  else concatGo [base + 0x1B] (beBytes 8 z)

mutual

/-- cbor.Encode from src/cbor.go.  Returns none where the Go code
panics: the int8, int16, int32 and int64 arms read the interface with
a type assertion for the unsigned type of the same width
(a.(byte), a.(uint16), a.(uint32), a.(uint64)), which fails at run
time on a signed dynamic type.  The unsigned arms call Refine with the
byte width of the value, folding the width - not the value - into the
tag octet.  nil encodes as 0xF6; every unhandled kind (bool, floats,
big integers and unknown types fall to the default arm) as 0xF7. -/
def encode : GoAny → Option Bytes
  | .vnil => some [0xF6]
  | .u8 n => some (concatGo [0x01] [n])
  | .u16 n => some (concatGo [0x02] (beBytes 2 n))
  | .u32 n => some (concatGo [0x04] (beBytes 4 n))
  | .u64 n => some (concatGo [0x08] (beBytes 8 n))
  | .i8 _ => none
  | .i16 _ => none
  | .i32 _ => none
  | .i64 _ => none
  | .iv n => some (concatGo [0x28] (beBytes 8 (n.emod (2 ^ 64)).toNat))
  | .uv n => some (concatGo [0x08] (beBytes 8 n))
  | .uptr n => some (concatGo [0x08] (beBytes 8 n))
  | .bytes b => some (encodeSized 0x40 b)
  | .str b => some (encodeSized 0x60 b)
  | .arr l => encodeArr (countPrefix 0x80 l.length) l
  | .gmap l => encodeMap (countPrefix 0xA0 l.length) l
  | .bool _ => some [0xF7]
  | .big _ => some [0xF7]
  | .f32 _ => some [0xF7]
  | .f64 _ => some [0xF7]
  | .obj _ => some [0xF7]
  | .brk => some [0xF7]
  | .other => some [0xF7]

/-- The child loop of the array arm of cbor.Encode. -/
def encodeArr (acc : Bytes) : List GoAny → Option Bytes
  | [] => some acc
  | v :: rest =>
    match encode v with
    | none => none
    | some vo => encodeArr (concatGo acc vo) rest

/-- The pair loop of the map arm of cbor.Encode: each key is encoded
as a string, then its value. -/
def encodeMap (acc : Bytes) : List (Bytes × GoAny) → Option Bytes
  | [] => some acc
  | (k, v) :: rest =>
    match encode (.str k) with
    | none => none
    | some ko =>
      match encode v with
      | none => none
      | some vo => encodeMap (concatGo (concatGo acc ko) vo) rest

end

/-- Go panics in Object.Decode are modelled as the error panicked;
dFuel is exhaustion of the model fuel. -/
inductive DErr where
  | panicked
  | dFuel
deriving DecidableEq, Repr

/-- The Go slice expression o[i .. j] over a slice whose capacity
equals its length: out of range panics. -/
def sliceGo (s : Bytes) (i j : Nat) : Option Bytes :=
  if i ≤ j ∧ j ≤ s.length then some ((s.drop i).take (j - i)) else none

/-- The Go index expression o[i]: out of range panics. -/
def idxGo (s : Bytes) (i : Nat) : Option Nat := s.get? i

/-- Reinterpretation of a w-bit unsigned value as the signed integer
with the same two-complement bits (the int16(value) style conversions
of Object.Decode). -/
def toSigned (w : Nat) (v : Nat) : Int :=
  if v < 2 ^ (w - 1) then (v : Int) else (v : Int) - 2 ^ w

/-- The chunk loop of the 0x5F and 0x7F arms of Object.Decode: chunks
are read from a buffer over the payload and decoded; a non-nil chunk
value is asserted to be a plain byte slice (anything else panics), but
the result of bary.Concatenate is discarded, so the accumulator never
changes and the loop only decides between normal exit and a panic. -/
def decChunks (dec : Bytes → Except DErr GoAny) : Nat → Bytes → Except DErr Unit
  | 0, _ => .error .dFuel
  | k + 1, s =>
    let r := read s
    match r.err with
    | some _ => .ok ()
    | none =>
      match dec r.obj with
      | .error e => .error e
      | .ok .vnil => decChunks dec k r.rest
      | .ok (.bytes _) => decChunks dec k r.rest
      | .ok _ => .error .panicked

/-- The child loop of the definite-length array arms of Object.Decode:
the result slice is preallocated with nil entries; a read error leaves
the remaining entries nil. -/
def decKids (dec : Bytes → Except DErr GoAny) : Nat → Bytes → Except DErr (List GoAny)
  | 0, _ => .ok []
  | m + 1, s =>
    let r := read s
    match r.err with
    | some _ => .ok (List.replicate (m + 1) .vnil)
    | none =>
      match dec r.obj with
      | .error e => .error e
      | .ok v =>
        match decKids dec m r.rest with
        | .error e => .error e
        | .ok l => .ok (v :: l)

/-- The child loop of the 0x9F arm of Object.Decode: children are
appended until a read error terminates the loop. -/
def decSeqKids (dec : Bytes → Except DErr GoAny) :
    Nat → Bytes → List GoAny → Except DErr (List GoAny)
  | 0, _, _ => .error .dFuel
  | k + 1, s, acc =>
    let r := read s
    match r.err with
    | some _ => .ok acc
    | none =>
      match dec r.obj with
      | .error e => .error e
      | .ok v => decSeqKids dec k r.rest (acc ++ [v])

/-- Insertion into the association-list model of a Go map: an existing
key is overwritten in place, a new key is appended. -/
def upsert (m : List (Bytes × GoAny)) (k : Bytes) (v : GoAny) :
    List (Bytes × GoAny) :=
  match m with
  | [] => [(k, v)]
  | (k0, v0) :: rest => if k0 = k then (k, v) :: rest else (k0, v0) :: upsert rest k v

/-- The pair loop of the definite-length map arms of Object.Decode: a
read error on either position terminates the loop; a nil key skips the
pair; a non-string key fails the a.(string) assertion and panics; the
value of a string key is decoded and inserted. -/
def decPairs (dec : Bytes → Except DErr GoAny) :
    Nat → Bytes → List (Bytes × GoAny) → Except DErr (List (Bytes × GoAny))
  | 0, _, acc => .ok acc
  | m + 1, s, acc =>
    let ra := read s
    match ra.err with
    | some _ => .ok acc
    | none =>
      let rb := read ra.rest
      match rb.err with
      | some _ => .ok acc
      | none =>
        match dec ra.obj with
        | .error e => .error e
        | .ok .vnil => decPairs dec m rb.rest acc
        | .ok (.str k) =>
          match dec rb.obj with
          | .error e => .error e
          | .ok v => decPairs dec m rb.rest (upsert acc k v)
        | .ok _ => .error .panicked

/-- The pair loop of the 0xBF arm of Object.Decode, terminated by the
first read error (a Break on a key position reads as an error too). -/
def decSeqPairs (dec : Bytes → Except DErr GoAny) :
    Nat → Bytes → List (Bytes × GoAny) → Except DErr (List (Bytes × GoAny))
  | 0, _, _ => .error .dFuel
  | k + 1, s, acc =>
    let ra := read s
    match ra.err with
    | some _ => .ok acc
    | none =>
      let rb := read ra.rest
      match rb.err with
      | some _ => .ok acc
      | none =>
        match dec ra.obj with
        | .error e => .error e
        | .ok .vnil => decSeqPairs dec k rb.rest acc
        | .ok (.str key) =>
          match dec rb.obj with
          | .error e => .error e
          | .ok v => decSeqPairs dec k rb.rest (upsert acc key v)
        | .ok _ => .error .panicked

/-- Fuelled Object.Decode from src/cbor.go.  An object without a tag
decodes to nil.  Each arm mirrors the corresponding switch arm,
including the slice bounds the Go code uses: the 0x18 and 0x38 arms
treat the octet after the tag as a byte count and slice that many
octets; the 0x19-0x1B, 0x39-0x3B, 0x59-0x5B, 0x79-0x7B, 0x99-0x9B,
0xB9-0xBB, 0xFA and 0xFB arms pass a slice one octet narrower than the
decoder width to the octet codec; the 0x58 arm slices one octet past
its payload; arms left as comments in the source return nil. -/
def decodeF : Nat → Bytes → Except DErr GoAny
  | 0, _ => .error .dFuel
  | fuel + 1, o =>
    match o with
    | [] => .ok .vnil
    | t :: _ =>
      if t ≤ 0x17 then .ok (.u8 t)
      else if t = 0x18 then
        match idxGo o 1 with
        | none => .error .panicked
        | some cnt =>
          match sliceGo o 2 (2 + cnt) with
          | none => .error .panicked
          | some text =>
            if cnt = 2 then
              match endianDecode 2 text with
              | none => .error .panicked
              | some v => .ok (.u16 v)
            else if cnt = 4 then
              match endianDecode 4 text with
              | none => .error .panicked
              | some v => .ok (.u32 v)
            else if cnt = 8 then
              match endianDecode 8 text with
              | none => .error .panicked
              | some v => .ok (.u64 v)
            else .ok (.big (beVal text))
      else if t = 0x19 ∨ t = 0x1A ∨ t = 0x1B then
        let w := if t = 0x19 then 2 else if t = 0x1A then 4 else 8
        match sliceGo o 1 w with
        | none => .error .panicked
        | some cntAry =>
          match endianDecode w cntAry with
          | none => .error .panicked
          | some cnt =>
            match sliceGo o (w + 1) (w + 1 + cnt) with
            | none => .error .panicked
            | some text => .ok (.big (beVal text))
      else if 0x20 ≤ t ∧ t ≤ 0x37 then .ok (.iv (-1 - ((t : Int) - 0x20)))
      else if t = 0x38 then
        match idxGo o 1 with
        | none => .error .panicked
        | some cnt =>
          match sliceGo o 2 (2 + cnt) with
          | none => .error .panicked
          | some text =>
            if cnt = 2 then
              match endianDecode 2 text with
              | none => .error .panicked
              | some v => .ok (.i16 (toSigned 16 v))
            else if cnt = 4 then
              match endianDecode 4 text with
              | none => .error .panicked
              | some v => .ok (.i32 (toSigned 32 v))
            else if cnt = 8 then
              match endianDecode 8 text with
              | none => .error .panicked
              | some v => .ok (.i64 (toSigned 64 v))
            else .ok (.big (beVal text))
      else if t = 0x39 ∨ t = 0x3A ∨ t = 0x3B then
        let w := if t = 0x39 then 2 else if t = 0x3A then 4 else 8
        match sliceGo o 1 w with
        | none => .error .panicked
        | some cntAry =>
          match endianDecode w cntAry with
          | none => .error .panicked
          | some cnt =>
            match sliceGo o (w + 1) (w + 1 + cnt) with
            | none => .error .panicked
            | some text => .ok (.big (beVal text))
      else if 0x40 ≤ t ∧ t ≤ 0x57 then
        match sliceGo o 1 (t - 0x40 + 1) with
        | none => .error .panicked
        | some text => .ok (.bytes text)
      else if t = 0x58 then
        match idxGo o 1 with
        | none => .error .panicked
        | some cnt =>
          match sliceGo o 2 (3 + cnt) with
          | none => .error .panicked
          | some text => .ok (.bytes text)
      else if t = 0x59 ∨ t = 0x5A ∨ t = 0x5B then
        let w := if t = 0x59 then 2 else if t = 0x5A then 4 else 8
        match sliceGo o 1 w with
        | none => .error .panicked
        | some cntAry =>
          match endianDecode w cntAry with
          | none => .error .panicked
          | some cnt =>
            match sliceGo o (w + 1) (w + 1 + cnt) with
            | none => .error .panicked
            | some text => .ok (.bytes text)
      else if t = 0x5F then
        match decChunks (decodeF fuel) o.length (o.drop 1) with
        | .error e => .error e
        | .ok _ => .ok (.obj [])
      else if 0x60 ≤ t ∧ t ≤ 0x77 then
        match sliceGo o 1 (t - 0x60 + 1) with
        | none => .error .panicked
        | some text => .ok (.str text)
      else if t = 0x78 then
        match idxGo o 1 with
        | none => .error .panicked
        | some cnt =>
          match sliceGo o 2 (2 + cnt) with
          | none => .error .panicked
          | some text => .ok (.str text)
      else if t = 0x79 ∨ t = 0x7A ∨ t = 0x7B then
        let w := if t = 0x79 then 2 else if t = 0x7A then 4 else 8
        match sliceGo o 1 w with
        | none => .error .panicked
        | some cntAry =>
          match endianDecode w cntAry with
          | none => .error .panicked
          | some cnt =>
            match sliceGo o (w + 1) (w + 1 + cnt) with
            | none => .error .panicked
            | some text => .ok (.str text)
      else if t = 0x7F then
        match decChunks (decodeF fuel) o.length (o.drop 1) with
        | .error e => .error e
        | .ok _ => .ok (.str [])
      else if 0x80 ≤ t ∧ t ≤ 0x97 then
        match decKids (decodeF fuel) (t - 0x80) (o.drop 1) with
        | .error e => .error e
        | .ok l => .ok (.arr l)
      else if t = 0x98 then
        match idxGo o 1 with
        | none => .error .panicked
        | some m =>
          match decKids (decodeF fuel) m (o.drop 2) with
          | .error e => .error e
          | .ok l => .ok (.arr l)
      else if t = 0x99 ∨ t = 0x9A ∨ t = 0x9B then
        let w := if t = 0x99 then 2 else if t = 0x9A then 4 else 8
        match sliceGo o 1 w with
        | none => .error .panicked
        | some cntAry =>
          match endianDecode w cntAry with
          | none => .error .panicked
          | some m =>
            match decKids (decodeF fuel) m (o.drop (w + 1)) with
            | .error e => .error e
            | .ok l => .ok (.arr l)
      else if t = 0x9F then
        match decSeqKids (decodeF fuel) o.length (o.drop 1) [] with
        | .error e => .error e
        | .ok l => .ok (.arr l)
      else if 0xA0 ≤ t ∧ t ≤ 0xB7 then
        match decPairs (decodeF fuel) (t - 0xA0) (o.drop 1) [] with
        | .error e => .error e
        | .ok l => .ok (.gmap l)
      else if t = 0xB8 then
        match idxGo o 1 with
        | none => .error .panicked
        | some m =>
          match decPairs (decodeF fuel) m (o.drop 2) [] with
          | .error e => .error e
          | .ok l => .ok (.gmap l)
      else if t = 0xB9 ∨ t = 0xBA ∨ t = 0xBB then
        let w := if t = 0xB9 then 2 else if t = 0xBA then 4 else 8
        match sliceGo o 1 w with
        | none => .error .panicked
        | some cntAry =>
          match endianDecode w cntAry with
          | none => .error .panicked
          | some m =>
            match decPairs (decodeF fuel) m (o.drop (w + 1)) [] with
            | .error e => .error e
            | .ok l => .ok (.gmap l)
      else if t = 0xBF then
        match decSeqPairs (decodeF fuel) o.length (o.drop 1) [] with
        | .error e => .error e
        | .ok l => .ok (.gmap l)
      else if t = 0xC0 ∨ t = 0xC1 then
        let r := read (o.drop 1)
        match r.err with
        | none => decodeF fuel r.obj
        | some _ => .ok .vnil
      else if t = 0xC2 ∨ t = 0xC3 then .ok (.big (beVal (o.drop 1)))
      else if t = 0xF4 then .ok (.bool false)
      else if t = 0xF5 then .ok (.bool true)
      else if t = 0xF6 ∨ t = 0xF7 then .ok .vnil
      else if t = 0xF8 then
        match idxGo o 1 with
        | none => .error .panicked
        | some v => .ok (.u8 v)
      else if t = 0xFA then
        match sliceGo o 1 4 with
        | none => .error .panicked
        | some text =>
          match endianDecode 4 text with
          | none => .error .panicked
          | some bits => .ok (.f32 bits)
      else if t = 0xFB then
        match sliceGo o 1 8 with
        | none => .error .panicked
        | some text =>
          match endianDecode 8 text with
          | none => .error .panicked
          | some bits => .ok (.f64 bits)
      else if t = 0xFF then .ok .brk
      else .ok .vnil

/-- Object.Decode applied to an object. -/
def decode (o : Bytes) : Except DErr GoAny := decodeF (o.length + 1) o

/-! Claims about the concrete behavior of Read, Write, Encode, Decode
and Concatenate. -/

/-- Claim C1 is false of the code: 0x40 alone is a well-formed RFC 8949
item (the empty byte string), yet Read returns the empty Object with a
nil error, because Object.Concatenate of the one-byte object with the
empty payload returns the empty argument.  Write of that Object then
emits nothing rather than the input byte. -/
theorem read_write_roundtrip_fails_on_empty_blob :
    read [0x40] = ⟨[], none, []⟩ ∧ write [] ≠ [0x40] := by
  refine ⟨rfl, ?_⟩
  decide

/-- Claim C2 is false of the code: the unsigned-integer arm of Encode
calls Refine with the byte width, so uint8 5 encodes as 0x01 0x05, and
Decode of that object returns the tag octet as the value, uint8 1. -/
theorem decode_encode_not_identity_on_uint8 :
    encode (.u8 5) = some [0x01, 0x05] ∧
    decode [0x01, 0x05] = .ok (.u8 1) ∧ (1 : Nat) ≠ 5 := by
  refine ⟨by simp [encode, concatGo], rfl, by decide⟩

/-- Claim C3 is false of the code: the minimal RFC 8949 encoding of the
unsigned integer 5 is the single octet 0x05, but Encode folds the byte
width (1) into the tag instead of the value and produces 0x01 0x05. -/
theorem encode_uint8_not_minimal_form :
    encode (.u8 5) = some [0x01, 0x05] ∧ [0x01, 0x05] ≠ [0x05] := by
  refine ⟨by simp [encode, concatGo], by decide⟩

/-- Claim C4 is false of the code on one branch: Concatenate returns
the byte concatenation when both sides are nonempty and returns b when
a is empty, but when b alone is empty the second branch returns b as
well, so a nonempty receiver is lost. -/
theorem concatenate_empty_argument_returns_empty :
    concatGo [0x01] [] = [] ∧ ([] : Bytes) ≠ [0x01] ∧
    concatGo [] [0x02] = [0x02] ∧ concatGo [0x01] [0x02] = [0x01, 0x02] := by
  refine ⟨rfl, ?_, rfl, rfl⟩
  decide

/-- Claim C5 is false of the code: Read of 0x18 0x05 frames the
two-octet object, but Decode of that object treats the octet after the
tag as a byte count and slices five octets past the end, which panics
instead of returning the value 5. -/
theorem decode_one_byte_uint_panics :
    read [0x18, 0x05] = ⟨[0x18, 0x05], none, []⟩ ∧
    decode [0x18, 0x05] = .error .panicked := by
  exact ⟨rfl, rfl⟩

/-- Claim C6 is false of the code: Read of the nine-octet indefinite
byte string drops the final break octet from the returned Object
(eight octets come back), and Decode of that Object discards every
chunk because the result of bary.Concatenate is never assigned, so the
decoded value is the empty Object rather than 01 02 03 04 05. -/
theorem indefinite_byte_string_scenario :
    read [0x5F, 0x42, 0x01, 0x02, 0x43, 0x03, 0x04, 0x05, 0xFF] =
      ⟨[0x5F, 0x42, 0x01, 0x02, 0x43, 0x03, 0x04, 0x05], none, []⟩ ∧
    decode [0x5F, 0x42, 0x01, 0x02, 0x43, 0x03, 0x04, 0x05] = .ok (.obj []) ∧
    decode [0x5F, 0x42, 0x01, 0x02, 0x43, 0x03, 0x04, 0x05, 0xFF] = .ok (.obj []) := by
  exact ⟨rfl, rfl, rfl⟩

/-- Claim C9 is false of the code: the int8 arm of Encode reads the
interface value with the type assertion a.(byte), which panics on a
signed dynamic type, so Encode is not total.  The parts of the claim
about nil and unknown kinds do hold: nil encodes as 0xF6 and a kind
the switch does not recognize (here bool) encodes as 0xF7. -/
theorem encode_panics_on_int8 :
    encode (.i8 0) = none ∧ encode (.bool true) = some [0xF7] ∧
    encode .vnil = some [0xF6] := by
  refine ⟨by simp [encode], by simp [encode], by simp [encode]⟩

/-- One step of the fuelled reader on a nonempty source. -/
theorem readF_cons (fuel t : Nat) (s : Bytes) :
    readF (fuel + 1) (t :: s) = readBody (readF fuel) t s := rfl

/-- Object.Read on a nonempty source dispatches the first octet over
the remaining stream. -/
theorem read_cons (t : Nat) (s : Bytes) :
    read (t :: s) = readBody (readF (s.length + 1)) t s := by
  show readF ((t :: s).length + 1) (t :: s) = _
  rw [List.length_cons]
  exact readF_cons (s.length + 1) t s

/-- Claim C7: every input whose first octet carries additional
information 28, 29 or 30 falls to the default arm of the Read switch
and fails with ErrorUnrecognizedTag, whatever octets follow. -/
theorem read_reserved_ai_fails_unrecognized (t : Nat) (rest : Bytes)
    (h : t ∈ [0x1C, 0x1D, 0x1E, 0x3C, 0x3D, 0x3E, 0x5C, 0x5D, 0x5E,
              0x7C, 0x7D, 0x7E, 0x9C, 0x9D, 0x9E, 0xBC, 0xBD, 0xBE,
              0xDC, 0xDD, 0xDE, 0xFC, 0xFD, 0xFE]) :
    read (t :: rest) = ⟨[], some .unrecognizedTag, rest⟩ := by
  have hc : classify t = .unrec := by
    fin_cases h <;> rfl
  rw [read_cons, readBody, hc]

/-- Witness for claim C7 at the first octet 0x1C and an empty tail. -/
theorem read_reserved_ai_fails_unrecognized_witness :
    (0x1C : Nat) ∈ [0x1C, 0x1D, 0x1E, 0x3C, 0x3D, 0x3E, 0x5C, 0x5D, 0x5E,
              0x7C, 0x7D, 0x7E, 0x9C, 0x9D, 0x9E, 0xBC, 0xBD, 0xBE,
              0xDC, 0xDD, 0xDE, 0xFC, 0xFD, 0xFE] ∧
    read [0x1C] = ⟨[], some .unrecognizedTag, []⟩ :=
  ⟨by decide, read_reserved_ai_fails_unrecognized 0x1C [] (by decide)⟩

/-- Claim C8 is false as stated: 0x19 alone is a proper truncation of
the well-formed item 0x19 0x01 0x02, and the length field demands two
octets of which the source delivers zero, but Read fails with the
wrapped io.EOF of the source rather than with ErrorMissingData
(bytes.Buffer reports EOF, not a short count, on an empty buffer). -/
theorem truncation_error_not_missing_data :
    read [0x19, 0x01, 0x02] = ⟨[0x19, 0x01, 0x02], none, []⟩ ∧
    read [0x19] = ⟨[], some (.wrap .eofE), []⟩ ∧
    Err.wrap .eofE ≠ Err.missingData := by
  refine ⟨rfl, rfl, ?_⟩
  decide

/-- Helper for claim C10: the array child loop either succeeds or
returns a nil Object with a wrapped error. -/
theorem readKids_err_obj (child : Bytes → RRes) (m : Nat) (acc s : Bytes) :
    ((readKids child m acc s).err).isSome → (readKids child m acc s).obj = [] := by
  induction m generalizing acc s with
  | zero => intro h; simp [readKids] at h
  | succ m ih =>
    simp only [readKids]
    split
    · exact ih _ _
    · intro _; rfl

/-- Helper for claim C10: the map pair loop either succeeds or returns
a nil Object with a wrapped error. -/
theorem readPairs_err_obj (child : Bytes → RRes) (m : Nat) (acc s : Bytes) :
    ((readPairs child m acc s).err).isSome → (readPairs child m acc s).obj = [] := by
  induction m generalizing acc s with
  | zero => intro h; simp [readPairs] at h
  | succ m ih =>
    simp only [readPairs]
    split
    · intro _; rfl
    · split
      · intro _; rfl
      · exact ih _ _

/-- Helper for claim C10 for the break-terminated child loop. -/
theorem readSeq_err_obj (child : Bytes → RRes) (k : Nat) (acc s : Bytes) :
    ((readSeq child k acc s).err).isSome → (readSeq child k acc s).obj = [] := by
  induction k generalizing acc s with
  | zero => intro _; rfl
  | succ k ih =>
    simp only [readSeq]
    split
    · exact ih _ _
    · intro h; simp at h
    · intro _; rfl

/-- Helper for claim C10 for the break-terminated pair loop. -/
theorem readSeqPairs_err_obj (child : Bytes → RRes) (k : Nat) (acc s : Bytes) :
    ((readSeqPairs child k acc s).err).isSome → (readSeqPairs child k acc s).obj = [] := by
  induction k generalizing acc s with
  | zero => intro _; rfl
  | succ k ih =>
    simp only [readSeqPairs]
    split
    · intro h; simp at h
    · intro _; rfl
    · split
      · intro _; rfl
      · exact ih _ _

/-- Helper for claim C10: every error arm of the Read dispatch returns
the nil Object alongside its error, whatever the nested reader does. -/
theorem readBody_err_obj (child : Bytes → RRes) (t : Nat) (s : Bytes) :
    ((readBody child t s).err).isSome → (readBody child t s).obj = [] := by
  rw [readBody]
  split
  · intro h; simp at h
  · split <;> (intro h; first | rfl | simp at h)
  · split
    · intro _; rfl
    · intro _; rfl
    · split <;> (intro h; first | rfl | simp at h)
  · split
    · intro _; rfl
    · intro _; rfl
    · split <;> (intro h; first | rfl | simp at h)
  · exact readKids_err_obj _ _ _ _
  · split
    · intro _; rfl
    · intro _; rfl
    · exact readKids_err_obj _ _ _ _
  · exact readPairs_err_obj _ _ _ _
  · split
    · intro _; rfl
    · intro _; rfl
    · exact readPairs_err_obj _ _ _ _
  · exact readSeq_err_obj _ _ _ _
  · exact readSeqPairs_err_obj _ _ _ _
  · split <;> (intro h; first | rfl | simp at h)
  · split
    · intro _; rfl
    · intro _; rfl
    · split <;> (intro h; first | rfl | simp at h)
  · intro _; rfl
  · intro _; rfl

/-- Claim C10: Read never returns both a data item and an error.  On
every error path, including the Break sentinel for 0xFF, the returned
Object is nil, and a successful return carries a nil error by the
pairing of the result. -/
theorem read_error_implies_empty_object (fuel : Nat) (s : Bytes)
    (h : ((readF fuel s).err).isSome) : (readF fuel s).obj = [] := by
  match fuel, s with
  | 0, _ => rfl
  | fuel + 1, [] => rfl
  | fuel + 1, t :: s1 => exact readBody_err_obj (readF fuel) t s1 h

/-- Witness for claim C10 at the break octet. -/
theorem read_error_implies_empty_object_witness :
    ((readF 1 [0xFF]).err).isSome = true ∧ (readF 1 [0xFF]).obj = [] :=
  ⟨by decide, read_error_implies_empty_object 1 [0xFF] (by decide)⟩



/-- A successful source read splits the stream and is insensitive to
anything appended after the delivered octets. -/
theorem recvN_frame {w : Nat} {s d s1 : Bytes} (h : recvN w s = .ok d s1) :
    s = d ++ s1 ∧ ∀ u, recvN w (d ++ u) = .ok d u := by
  unfold recvN at h
  split_ifs at h with h0 h1 h2
  · injection h with hd hs
    subst hd
    subst hs
    subst h0
    exact ⟨rfl, fun u => by simp [recvN]⟩
  · injection h with hd hs
    subst hd
    subst hs
    have hw : w ≤ s.length := Nat.le_of_not_lt h2
    have hlen : (s.take w).length = w := by
      rw [List.length_take]
      exact Nat.min_eq_left hw
    refine ⟨(List.take_append_drop w s).symm, fun u => ?_⟩
    unfold recvN
    rw [if_neg h0, if_neg, if_neg]
    · rw [List.take_left' hlen, List.drop_left' hlen]
    · rw [List.length_append, hlen]
      omega
    · rw [List.length_append, hlen]
      omega

/-- Errors leaving the array child loop are always wrapped. -/
theorem readKids_err_shape (child : Bytes → RRes) (m : Nat) (acc s : Bytes) (e : Err)
    (h : (readKids child m acc s).err = some e) : ∃ e0, e = .wrap e0 := by
  induction m generalizing acc s with
  | zero => simp [readKids] at h
  | succ m ih =>
    rw [readKids] at h
    rcases hcs : child s with ⟨co, ce, cr⟩
    simp only [hcs] at h
    cases ce with
    | none => exact ih _ _ h
    | some e1 =>
      simp at h
      exact ⟨e1, h.symm⟩

/-- Errors leaving the map pair loop are always wrapped. -/
theorem readPairs_err_shape (child : Bytes → RRes) (m : Nat) (acc s : Bytes) (e : Err)
    (h : (readPairs child m acc s).err = some e) : ∃ e0, e = .wrap e0 := by
  induction m generalizing acc s with
  | zero => simp [readPairs] at h
  | succ m ih =>
    rw [readPairs] at h
    rcases hca : child s with ⟨ao, ae, ar⟩
    simp only [hca] at h
    cases ae with
    | some e1 =>
      simp at h
      exact ⟨e1, h.symm⟩
    | none =>
      rcases hcb : child ar with ⟨bo, be, br⟩
      simp only [hcb] at h
      cases be with
      | some e2 =>
        simp at h
        exact ⟨e2, h.symm⟩
      | none => exact ih _ _ h

/-- Errors leaving the break-terminated child loop are the fuel marker
or wrapped; in particular never a bare Break. -/
theorem readSeq_err_shape (child : Bytes → RRes) (k : Nat) (acc s : Bytes) (e : Err)
    (h : (readSeq child k acc s).err = some e) :
    e = .fuelOut ∨ ∃ e0, e = .wrap e0 := by
  induction k generalizing acc s with
  | zero =>
    simp [readSeq] at h
    exact .inl h.symm
  | succ k ih =>
    rw [readSeq] at h
    rcases hcs : child s with ⟨co, ce, cr⟩
    simp only [hcs] at h
    match ce with
    | none => exact ih _ _ h
    | some .breakE => simp at h
    | some (.wrap e1) => simp at h; exact .inr ⟨_, h.symm⟩
    | some .eofE => simp at h; exact .inr ⟨_, h.symm⟩
    | some .missingData => simp at h; exact .inr ⟨_, h.symm⟩
    | some .unrecognizedTag => simp at h; exact .inr ⟨_, h.symm⟩
    | some .shortHeader => simp at h; exact .inr ⟨_, h.symm⟩
    | some .fuelOut => simp at h; exact .inr ⟨_, h.symm⟩

/-- Errors leaving the break-terminated pair loop are the fuel marker
or wrapped; in particular never a bare Break. -/
theorem readSeqPairs_err_shape (child : Bytes → RRes) (k : Nat) (acc s : Bytes) (e : Err)
    (h : (readSeqPairs child k acc s).err = some e) :
    e = .fuelOut ∨ ∃ e0, e = .wrap e0 := by
  induction k generalizing acc s with
  | zero =>
    simp [readSeqPairs] at h
    exact .inl h.symm
  | succ k ih =>
    rw [readSeqPairs] at h
    rcases hca : child s with ⟨ao, ae, ar⟩
    simp only [hca] at h
    match ae with
    | none =>
      rcases hcb : child ar with ⟨bo, be, br⟩
      simp only [hcb] at h
      cases be with
      | some e2 => simp at h; exact .inr ⟨_, h.symm⟩
      | none => exact ih _ _ h
    | some .breakE => simp at h
    | some (.wrap e1) => simp at h; exact .inr ⟨_, h.symm⟩
    | some .eofE => simp at h; exact .inr ⟨_, h.symm⟩
    | some .missingData => simp at h; exact .inr ⟨_, h.symm⟩
    | some .unrecognizedTag => simp at h; exact .inr ⟨_, h.symm⟩
    | some .shortHeader => simp at h; exact .inr ⟨_, h.symm⟩
    | some .fuelOut => simp at h; exact .inr ⟨_, h.symm⟩

/-- On a break tag the dispatch returns the Break error and the nil
Object, leaving the rest of the source untouched. -/
theorem readBody_brk_eval (child : Bytes → RRes) {t : Nat} (hc : classify t = .brk)
    (u : Bytes) : readBody child t u = ⟨[], some .breakE, u⟩ := by
  rw [readBody, hc]

/-- The fuelled reader on a break tag consumes exactly that octet. -/
theorem readF_brk_eval {t : Nat} (hc : classify t = .brk) (g : Nat) (u : Bytes) :
    readF (g + 1) (t :: u) = ⟨[], some .breakE, u⟩ := by
  rw [readF_cons]
  exact readBody_brk_eval _ hc u

/-- A bare Break error escapes the dispatch only through the 0xFF arm,
with the nil Object and the source where it stood. -/
theorem readBody_break (child : Bytes → RRes) (t : Nat) (s : Bytes) (o r : Bytes)
    (h : readBody child t s = ⟨o, some .breakE, r⟩) :
    o = [] ∧ r = s ∧ classify t = .brk := by
  rw [readBody] at h
  rcases hcl : classify t with _ | w | w | w | m | w | m | w | _ | _ | _ | w | _ | _ <;>
    simp only [hcl] at h
  · simp at h
  · rcases hr : recvN w s with ⟨d, s1⟩ | _ | _ <;> simp only [hr] at h <;> simp at h
  · rcases hr : recvN w s with ⟨d, s1⟩ | _ | _ <;> simp only [hr] at h
    · rcases hr2 : recvN (beVal d) s1 with ⟨p, s2⟩ | _ | _ <;> simp only [hr2] at h <;>
        simp at h
    · simp at h
    · simp at h
  · rcases hr : recvN w s with ⟨d, s1⟩ | _ | _ <;> simp only [hr] at h
    · rcases hr2 : recvN (beVal d) s1 with ⟨p, s2⟩ | _ | _ <;> simp only [hr2] at h <;>
        simp at h
    · simp at h
    · simp at h
  · have hs := readKids_err_shape child m [t] s .breakE (by rw [h])
    simp at hs
  · rcases hr : recvN w s with ⟨d, s1⟩ | _ | _ <;> simp only [hr] at h
    · have hs := readKids_err_shape child (beVal d) (concatGo [t] d) s1 .breakE (by rw [h])
      simp at hs
    · simp at h
    · simp at h
  · have hs := readPairs_err_shape child m [t] s .breakE (by rw [h])
    simp at hs
  · rcases hr : recvN w s with ⟨d, s1⟩ | _ | _ <;> simp only [hr] at h
    · have hs := readPairs_err_shape child (beVal d) (concatGo [t] d) s1 .breakE (by rw [h])
      simp at hs
    · simp at h
    · simp at h
  · have hs := readSeq_err_shape child (s.length + 1) [t] s .breakE (by rw [h])
    simp at hs
  · have hs := readSeqPairs_err_shape child (s.length + 1) [t] s .breakE (by rw [h])
    simp at hs
  · rcases hcs : child s with ⟨co, ce, cr⟩
    simp only [hcs] at h
    cases ce with
    | none => simp at h
    | some e1 => simp at h
  · rcases hr : recvN w s with ⟨d, s1⟩ | _ | _ <;> simp only [hr] at h
    · rcases hcs : child s1 with ⟨co, ce, cr⟩
      simp only [hcs] at h
      cases ce with
      | none => simp at h
      | some e1 => simp at h
    · simp at h
    · simp at h
  · rw [RRes.mk.injEq] at h
    obtain ⟨ho, _, hr⟩ := h
    exact ⟨ho.symm, hr.symm, rfl⟩
  · simp at h

/-- A bare Break from the reader pins the source down to a break tag
followed by the returned rest. -/
theorem readF_break (f : Nat) (s : Bytes) (o r : Bytes)
    (h : readF f s = ⟨o, some .breakE, r⟩) :
    o = [] ∧ ∃ t, s = t :: r ∧ classify t = .brk := by
  match f, s with
  | 0, s => simp [readF] at h
  | f + 1, [] => simp [readF] at h
  | f + 1, t :: s1 =>
    rw [readF_cons] at h
    obtain ⟨ho, hr, hcl⟩ := readBody_break _ _ _ _ _ h
    exact ⟨ho, t, by rw [hr], hcl⟩

/-- The array child loop is stable under any reader that reproduces the
successful child reads. -/
theorem readKids_mono {child child' : Bytes → RRes}
    (hok : ∀ s o r, child s = ⟨o, none, r⟩ → child' s = ⟨o, none, r⟩)
    (m : Nat) (acc s o r : Bytes)
    (h : readKids child m acc s = ⟨o, none, r⟩) :
    readKids child' m acc s = ⟨o, none, r⟩ := by
  induction m generalizing acc s with
  | zero => exact h
  | succ m ih =>
    rw [readKids] at h ⊢
    rcases hcs : child s with ⟨co, ce, cr⟩
    simp only [hcs] at h
    cases ce with
    | none =>
      simp only [hok _ _ _ hcs]
      exact ih _ _ h
    | some e => simp at h

/-- The map pair loop is stable under any reader that reproduces the
successful child reads. -/
theorem readPairs_mono {child child' : Bytes → RRes}
    (hok : ∀ s o r, child s = ⟨o, none, r⟩ → child' s = ⟨o, none, r⟩)
    (m : Nat) (acc s o r : Bytes)
    (h : readPairs child m acc s = ⟨o, none, r⟩) :
    readPairs child' m acc s = ⟨o, none, r⟩ := by
  induction m generalizing acc s with
  | zero => exact h
  | succ m ih =>
    rw [readPairs] at h ⊢
    rcases hca : child s with ⟨ao, ae, ar⟩
    simp only [hca] at h
    cases ae with
    | some e => simp at h
    | none =>
      simp only [hok _ _ _ hca]
      rcases hcb : child ar with ⟨bo, be, br⟩
      simp only [hcb] at h
      cases be with
      | some e => simp at h
      | none =>
        simp only [hok _ _ _ hcb]
        exact ih _ _ h

/-- The break-terminated child loop is stable under any reader that
reproduces the successful and breaking child reads. -/
theorem readSeq_mono {child child' : Bytes → RRes}
    (hok : ∀ s o r, child s = ⟨o, none, r⟩ → child' s = ⟨o, none, r⟩)
    (hbr : ∀ s o r, child s = ⟨o, some .breakE, r⟩ → child' s = ⟨o, some .breakE, r⟩)
    (k : Nat) (acc s o r : Bytes)
    (h : readSeq child k acc s = ⟨o, none, r⟩) :
    readSeq child' k acc s = ⟨o, none, r⟩ := by
  induction k generalizing acc s with
  | zero => simp [readSeq] at h
  | succ k ih =>
    rw [readSeq] at h ⊢
    rcases hcs : child s with ⟨co, ce, cr⟩
    simp only [hcs] at h
    cases ce with
    | none =>
      simp only [hok _ _ _ hcs]
      exact ih _ _ h
    | some e =>
      cases e with
      | breakE =>
        simp only [hbr _ _ _ hcs]
        exact h
      | eofE => simp at h
      | missingData => simp at h
      | unrecognizedTag => simp at h
      | shortHeader => simp at h
      | fuelOut => simp at h
      | wrap e0 => simp at h

/-- The break-terminated pair loop is stable under any reader that
reproduces the successful and breaking child reads. -/
theorem readSeqPairs_mono {child child' : Bytes → RRes}
    (hok : ∀ s o r, child s = ⟨o, none, r⟩ → child' s = ⟨o, none, r⟩)
    (hbr : ∀ s o r, child s = ⟨o, some .breakE, r⟩ → child' s = ⟨o, some .breakE, r⟩)
    (k : Nat) (acc s o r : Bytes)
    (h : readSeqPairs child k acc s = ⟨o, none, r⟩) :
    readSeqPairs child' k acc s = ⟨o, none, r⟩ := by
  induction k generalizing acc s with
  | zero => simp [readSeqPairs] at h
  | succ k ih =>
    rw [readSeqPairs] at h ⊢
    rcases hca : child s with ⟨ao, ae, ar⟩
    simp only [hca] at h
    cases ae with
    | none =>
      simp only [hok _ _ _ hca]
      rcases hcb : child ar with ⟨bo, be, br⟩
      simp only [hcb] at h
      cases be with
      | some e => simp at h
      | none =>
        simp only [hok _ _ _ hcb]
        exact ih _ _ h
    | some e =>
      cases e with
      | breakE =>
        simp only [hbr _ _ _ hca]
        exact h
      | eofE => simp at h
      | missingData => simp at h
      | unrecognizedTag => simp at h
      | shortHeader => simp at h
      | fuelOut => simp at h
      | wrap e0 => simp at h

/-- The dispatch is stable under any reader that reproduces the
successful and breaking child reads. -/
theorem readBody_mono {child child' : Bytes → RRes}
    (hok : ∀ s o r, child s = ⟨o, none, r⟩ → child' s = ⟨o, none, r⟩)
    (hbr : ∀ s o r, child s = ⟨o, some .breakE, r⟩ → child' s = ⟨o, some .breakE, r⟩)
    (t : Nat) (s o r : Bytes)
    (h : readBody child t s = ⟨o, none, r⟩) :
    readBody child' t s = ⟨o, none, r⟩ := by
  rw [readBody] at h ⊢
  rcases hcl : classify t with _ | w | w | w | m | w | m | w | _ | _ | _ | w | _ | _ <;>
    simp only [hcl] at h ⊢
  · exact h
  · exact h
  · exact h
  · exact h
  · exact readKids_mono hok m [t] s o r h
  · rcases hr : recvN w s with ⟨d, s1⟩ | _ | _ <;> simp only [hr] at h ⊢
    · exact readKids_mono hok _ _ _ _ _ h
    · exact h
    · exact h
  · exact readPairs_mono hok m [t] s o r h
  · rcases hr : recvN w s with ⟨d, s1⟩ | _ | _ <;> simp only [hr] at h ⊢
    · exact readPairs_mono hok _ _ _ _ _ h
    · exact h
    · exact h
  · exact readSeq_mono hok hbr _ _ _ _ _ h
  · exact readSeqPairs_mono hok hbr _ _ _ _ _ h
  · rcases hcs : child s with ⟨co, ce, cr⟩
    simp only [hcs] at h
    cases ce with
    | none =>
      simp only [hok _ _ _ hcs]
      exact h
    | some e => simp at h
  · rcases hr : recvN w s with ⟨d, s1⟩ | _ | _ <;> simp only [hr] at h ⊢
    · rcases hcs : child s1 with ⟨co, ce, cr⟩
      simp only [hcs] at h
      cases ce with
      | none =>
        simp only [hok _ _ _ hcs]
        exact h
      | some e => simp at h
    · exact h
    · exact h
  · simp at h
  · simp at h

/-- Extra fuel never changes a successful read. -/
theorem readF_mono (f : Nat) (s o r : Bytes)
    (h : readF f s = ⟨o, none, r⟩) : readF (f + 1) s = ⟨o, none, r⟩ := by
  induction f generalizing s o r with
  | zero => simp [readF] at h
  | succ f ih =>
    match s with
    | [] => exact h
    | t :: s1 =>
      rw [readF_cons] at h ⊢
      refine readBody_mono (fun s2 o2 r2 h2 => ih s2 o2 r2 h2) ?_ t s1 o r h
      intro s2 o2 r2 h2
      obtain ⟨ho2, t2, hs2, hcl2⟩ := readF_break f s2 o2 r2 h2
      subst ho2
      subst hs2
      exact readF_brk_eval hcl2 f r2

/-- Successful reads are stable under any larger fuel. -/
theorem readF_mono_le {f g : Nat} (hfg : f ≤ g) {s o r : Bytes}
    (h : readF f s = ⟨o, none, r⟩) : readF g s = ⟨o, none, r⟩ := by
  obtain ⟨k, rfl⟩ := Nat.le.dest hfg
  clear hfg
  induction k with
  | zero => exact h
  | succ k ih => exact readF_mono _ _ _ _ ih

/-- A successful array child loop consumed a prefix of the source and
reads the same prefix against any continuation. -/
theorem readKids_frame {child : Bytes → RRes}
    (hcf : ∀ s o r, child s = ⟨o, none, r⟩ →
      ∃ c, c ≠ [] ∧ s = c ++ r ∧ ∀ u, child (c ++ u) = ⟨o, none, u⟩)
    (m : Nat) (acc s o r : Bytes)
    (h : readKids child m acc s = ⟨o, none, r⟩) :
    ∃ c, s = c ++ r ∧ ∀ u, readKids child m acc (c ++ u) = ⟨o, none, u⟩ := by
  induction m generalizing acc s with
  | zero =>
    rw [readKids] at h
    rw [RRes.mk.injEq] at h
    obtain ⟨h1, _, h3⟩ := h
    subst h1
    subst h3
    exact ⟨[], rfl, fun u => rfl⟩
  | succ m ih =>
    rw [readKids] at h
    rcases hcs : child s with ⟨co, ce, cr⟩
    simp only [hcs] at h
    cases ce with
    | some e => simp at h
    | none =>
      obtain ⟨c1, hc1ne, hc1, hcu1⟩ := hcf _ _ _ hcs
      obtain ⟨c2, hc2, hcu2⟩ := ih _ _ h
      refine ⟨c1 ++ c2, ?_, ?_⟩
      · rw [hc1, hc2, List.append_assoc]
      · intro u
        rw [List.append_assoc, readKids]
        simp only [hcu1 (c2 ++ u)]
        exact hcu2 u

/-- A successful map pair loop consumed a prefix of the source and
reads the same prefix against any continuation. -/
theorem readPairs_frame {child : Bytes → RRes}
    (hcf : ∀ s o r, child s = ⟨o, none, r⟩ →
      ∃ c, c ≠ [] ∧ s = c ++ r ∧ ∀ u, child (c ++ u) = ⟨o, none, u⟩)
    (m : Nat) (acc s o r : Bytes)
    (h : readPairs child m acc s = ⟨o, none, r⟩) :
    ∃ c, s = c ++ r ∧ ∀ u, readPairs child m acc (c ++ u) = ⟨o, none, u⟩ := by
  induction m generalizing acc s with
  | zero =>
    rw [readPairs] at h
    rw [RRes.mk.injEq] at h
    obtain ⟨h1, _, h3⟩ := h
    subst h1
    subst h3
    exact ⟨[], rfl, fun u => rfl⟩
  | succ m ih =>
    rw [readPairs] at h
    rcases hca : child s with ⟨ao, ae, ar⟩
    simp only [hca] at h
    cases ae with
    | some e => simp at h
    | none =>
      rcases hcb : child ar with ⟨bo, be, br⟩
      simp only [hcb] at h
      cases be with
      | some e => simp at h
      | none =>
        obtain ⟨c1, hc1ne, hc1, hcu1⟩ := hcf _ _ _ hca
        obtain ⟨c2, hc2ne, hc2, hcu2⟩ := hcf _ _ _ hcb
        obtain ⟨c3, hc3, hcu3⟩ := ih _ _ h
        refine ⟨c1 ++ (c2 ++ c3), ?_, ?_⟩
        · rw [hc1, hc2, hc3]
          simp [List.append_assoc]
        · intro u
          rw [List.append_assoc, readPairs]
          simp only [hcu1 (c2 ++ c3 ++ u)]
          rw [List.append_assoc]
          simp only [hcu2 (c3 ++ u)]
          exact hcu3 u


/-- A successful break-terminated loop consumed a prefix of the source,
and replays on that prefix with any continuation and any fuel at least
the prefix length (each iteration consumes at least one octet). -/
theorem readSeq_frame {child : Bytes → RRes}
    (hcf : ∀ s o r, child s = ⟨o, none, r⟩ →
      ∃ c, c ≠ [] ∧ s = c ++ r ∧ ∀ u, child (c ++ u) = ⟨o, none, u⟩)
    (hbf : ∀ s o r, child s = ⟨o, some .breakE, r⟩ →
      ∃ t2, s = t2 :: r ∧ ∀ u, child (t2 :: u) = ⟨[], some .breakE, u⟩)
    (k : Nat) (acc s o r : Bytes)
    (h : readSeq child k acc s = ⟨o, none, r⟩) :
    ∃ c, s = c ++ r ∧ ∀ u k2, c.length ≤ k2 →
      readSeq child k2 acc (c ++ u) = ⟨o, none, u⟩ := by
  induction k generalizing acc s with
  | zero => simp [readSeq] at h
  | succ k ih =>
    rw [readSeq] at h
    rcases hcs : child s with ⟨co, ce, cr⟩
    simp only [hcs] at h
    cases ce with
    | none =>
      obtain ⟨c1, hc1ne, hc1, hcu1⟩ := hcf _ _ _ hcs
      obtain ⟨c2, hc2, hcu2⟩ := ih _ _ h
      have h1 : 1 ≤ c1.length := by
        cases c1 with
        | nil => exact absurd rfl hc1ne
        | cons a l => simp
      refine ⟨c1 ++ c2, by rw [hc1, hc2, List.append_assoc], ?_⟩
      intro u k2 hk2
      simp only [List.length_append] at hk2
      obtain ⟨k3, rfl⟩ : ∃ k3, k2 = k3 + 1 := ⟨k2 - 1, by omega⟩
      rw [List.append_assoc, readSeq]
      simp only [hcu1 (c2 ++ u)]
      exact hcu2 u k3 (by omega)
    | some e =>
      cases e with
      | breakE =>
        rw [RRes.mk.injEq] at h
        obtain ⟨ho, _, hr⟩ := h
        subst ho
        subst hr
        obtain ⟨t2, hs2, hbu⟩ := hbf _ _ _ hcs
        refine ⟨[t2], by rw [hs2]; rfl, ?_⟩
        intro u k2 hk2
        simp only [List.length_singleton] at hk2
        obtain ⟨k3, rfl⟩ : ∃ k3, k2 = k3 + 1 := ⟨k2 - 1, by omega⟩
        rw [List.singleton_append, readSeq]
        simp only [hbu u]
      | eofE => simp at h
      | missingData => simp at h
      | unrecognizedTag => simp at h
      | shortHeader => simp at h
      | fuelOut => simp at h
      | wrap e0 => simp at h

/-- A successful break-terminated pair loop consumed a prefix of the
source and replays on that prefix with any sufficient fuel. -/
theorem readSeqPairs_frame {child : Bytes → RRes}
    (hcf : ∀ s o r, child s = ⟨o, none, r⟩ →
      ∃ c, c ≠ [] ∧ s = c ++ r ∧ ∀ u, child (c ++ u) = ⟨o, none, u⟩)
    (hbf : ∀ s o r, child s = ⟨o, some .breakE, r⟩ →
      ∃ t2, s = t2 :: r ∧ ∀ u, child (t2 :: u) = ⟨[], some .breakE, u⟩)
    (k : Nat) (acc s o r : Bytes)
    (h : readSeqPairs child k acc s = ⟨o, none, r⟩) :
    ∃ c, s = c ++ r ∧ ∀ u k2, c.length ≤ k2 →
      readSeqPairs child k2 acc (c ++ u) = ⟨o, none, u⟩ := by
  induction k generalizing acc s with
  | zero => simp [readSeqPairs] at h
  | succ k ih =>
    rw [readSeqPairs] at h
    rcases hca : child s with ⟨ao, ae, ar⟩
    simp only [hca] at h
    cases ae with
    | none =>
      rcases hcb : child ar with ⟨bo, be, br⟩
      simp only [hcb] at h
      cases be with
      | some e => simp at h
      | none =>
        obtain ⟨c1, hc1ne, hc1, hcu1⟩ := hcf _ _ _ hca
        obtain ⟨c2, hc2ne, hc2, hcu2⟩ := hcf _ _ _ hcb
        obtain ⟨c3, hc3, hcu3⟩ := ih _ _ h
        have h1 : 1 ≤ c1.length := by
          cases c1 with
          | nil => exact absurd rfl hc1ne
          | cons a l => simp
        refine ⟨c1 ++ (c2 ++ c3), ?_, ?_⟩
        · rw [hc1, hc2, hc3]
          simp [List.append_assoc]
        · intro u k2 hk2
          simp only [List.length_append] at hk2
          obtain ⟨k3, rfl⟩ : ∃ k3, k2 = k3 + 1 := ⟨k2 - 1, by omega⟩
          rw [List.append_assoc, readSeqPairs]
          simp only [hcu1 (c2 ++ c3 ++ u)]
          rw [List.append_assoc]
          simp only [hcu2 (c3 ++ u)]
          exact hcu3 u k3 (by omega)
    | some e =>
      cases e with
      | breakE =>
        rw [RRes.mk.injEq] at h
        obtain ⟨ho, _, hr⟩ := h
        subst ho
        subst hr
        obtain ⟨t2, hs2, hbu⟩ := hbf _ _ _ hca
        refine ⟨[t2], by rw [hs2]; rfl, ?_⟩
        intro u k2 hk2
        simp only [List.length_singleton] at hk2
        obtain ⟨k3, rfl⟩ : ∃ k3, k2 = k3 + 1 := ⟨k2 - 1, by omega⟩
        rw [List.singleton_append, readSeqPairs]
        simp only [hbu u]
      | eofE => simp at h
      | missingData => simp at h
      | unrecognizedTag => simp at h
      | shortHeader => simp at h
      | fuelOut => simp at h
      | wrap e0 => simp at h

/-- A successful dispatch consumed a prefix of the source after the tag
and reads the same item against any continuation: the item is framed by
its leading octets alone. -/
theorem readBody_frame {child : Bytes → RRes}
    (hcf : ∀ s o r, child s = ⟨o, none, r⟩ →
      ∃ c, c ≠ [] ∧ s = c ++ r ∧ ∀ u, child (c ++ u) = ⟨o, none, u⟩)
    (hbf : ∀ s o r, child s = ⟨o, some .breakE, r⟩ →
      ∃ t2, s = t2 :: r ∧ ∀ u, child (t2 :: u) = ⟨[], some .breakE, u⟩)
    (t : Nat) (s o r : Bytes)
    (h : readBody child t s = ⟨o, none, r⟩) :
    ∃ c, s = c ++ r ∧ ∀ u, readBody child t (c ++ u) = ⟨o, none, u⟩ := by
  rw [readBody] at h
  rcases hcl : classify t with _ | w | w | w | m | w | m | w | _ | _ | _ | w | _ | _ <;>
    simp only [hcl] at h
  · -- imm
    rw [RRes.mk.injEq] at h
    obtain ⟨h1, _, h3⟩ := h
    subst h1
    subst h3
    refine ⟨[], rfl, fun u => ?_⟩
    rw [readBody, hcl]
    simp
  · -- fixe
    rcases hr : recvN w s with ⟨d, s1⟩ | _ | _ <;> simp only [hr] at h
    · rw [RRes.mk.injEq] at h
      obtain ⟨h1, _, h3⟩ := h
      subst h1
      subst h3
      obtain ⟨hsplit, hru⟩ := recvN_frame hr
      refine ⟨d, hsplit, fun u => ?_⟩
      rw [readBody, hcl]
      simp only [hru u]
    · simp at h
    · simp at h
  · -- lenPay
    rcases hr : recvN w s with ⟨d, s1⟩ | _ | _ <;> simp only [hr] at h
    · rcases hr2 : recvN (beVal d) s1 with ⟨p, s2⟩ | _ | _ <;> simp only [hr2] at h
      · rw [RRes.mk.injEq] at h
        obtain ⟨h1, _, h3⟩ := h
        subst h1
        subst h3
        obtain ⟨hsplit1, hru1⟩ := recvN_frame hr
        obtain ⟨hsplit2, hru2⟩ := recvN_frame hr2
        refine ⟨d ++ p, by rw [hsplit1, hsplit2, List.append_assoc], fun u => ?_⟩
        rw [readBody, hcl, List.append_assoc]
        simp only [hru1 (p ++ u)]
        simp only [hru2 u]
      · simp at h
      · simp at h
    · simp at h
    · simp at h
  · -- lenPayDup
    rcases hr : recvN w s with ⟨d, s1⟩ | _ | _ <;> simp only [hr] at h
    · rcases hr2 : recvN (beVal d) s1 with ⟨p, s2⟩ | _ | _ <;> simp only [hr2] at h
      · rw [RRes.mk.injEq] at h
        obtain ⟨h1, _, h3⟩ := h
        subst h1
        subst h3
        obtain ⟨hsplit1, hru1⟩ := recvN_frame hr
        obtain ⟨hsplit2, hru2⟩ := recvN_frame hr2
        refine ⟨d ++ p, by rw [hsplit1, hsplit2, List.append_assoc], fun u => ?_⟩
        rw [readBody, hcl, List.append_assoc]
        simp only [hru1 (p ++ u)]
        simp only [hru2 u]
      · simp at h
      · simp at h
    · simp at h
    · simp at h
  · -- kidsImm
    obtain ⟨c, hc, hcu⟩ := readKids_frame hcf m [t] s o r h
    refine ⟨c, hc, fun u => ?_⟩
    rw [readBody, hcl]
    exact hcu u
  · -- kidsLen
    rcases hr : recvN w s with ⟨d, s1⟩ | _ | _ <;> simp only [hr] at h
    · obtain ⟨hsplit1, hru1⟩ := recvN_frame hr
      obtain ⟨c, hc, hcu⟩ := readKids_frame hcf (beVal d) (concatGo [t] d) s1 o r h
      refine ⟨d ++ c, by rw [hsplit1, hc, List.append_assoc], fun u => ?_⟩
      rw [readBody, hcl, List.append_assoc]
      simp only [hru1 (c ++ u)]
      exact hcu u
    · simp at h
    · simp at h
  · -- pairsImm
    obtain ⟨c, hc, hcu⟩ := readPairs_frame hcf m [t] s o r h
    refine ⟨c, hc, fun u => ?_⟩
    rw [readBody, hcl]
    exact hcu u
  · -- pairsLen
    rcases hr : recvN w s with ⟨d, s1⟩ | _ | _ <;> simp only [hr] at h
    · obtain ⟨hsplit1, hru1⟩ := recvN_frame hr
      obtain ⟨c, hc, hcu⟩ := readPairs_frame hcf (beVal d) (concatGo [t] d) s1 o r h
      refine ⟨d ++ c, by rw [hsplit1, hc, List.append_assoc], fun u => ?_⟩
      rw [readBody, hcl, List.append_assoc]
      simp only [hru1 (c ++ u)]
      exact hcu u
    · simp at h
    · simp at h
  · -- seqKids
    obtain ⟨c, hc, hcu⟩ := readSeq_frame hcf hbf (s.length + 1) [t] s o r h
    refine ⟨c, hc, fun u => ?_⟩
    rw [readBody, hcl]
    refine hcu u ((c ++ u).length + 1) ?_
    rw [List.length_append]
    omega
  · -- seqPairs
    obtain ⟨c, hc, hcu⟩ := readSeqPairs_frame hcf hbf (s.length + 1) [t] s o r h
    refine ⟨c, hc, fun u => ?_⟩
    rw [readBody, hcl]
    refine hcu u ((c ++ u).length + 1) ?_
    rw [List.length_append]
    omega
  · -- oneKid
    rcases hcs : child s with ⟨co, ce, cr⟩
    simp only [hcs] at h
    cases ce with
    | some e => simp at h
    | none =>
      rw [RRes.mk.injEq] at h
      obtain ⟨h1, _, h3⟩ := h
      subst h1
      subst h3
      obtain ⟨c1, hc1ne, hc1, hcu1⟩ := hcf _ _ _ hcs
      refine ⟨c1, hc1, fun u => ?_⟩
      rw [readBody, hcl]
      simp only [hcu1 u]
  · -- tagNum
    rcases hr : recvN w s with ⟨d, s1⟩ | _ | _ <;> simp only [hr] at h
    · rcases hcs : child s1 with ⟨co, ce, cr⟩
      simp only [hcs] at h
      cases ce with
      | some e => simp at h
      | none =>
        rw [RRes.mk.injEq] at h
        obtain ⟨h1, _, h3⟩ := h
        subst h1
        subst h3
        obtain ⟨hsplit1, hru1⟩ := recvN_frame hr
        obtain ⟨c1, hc1ne, hc1, hcu1⟩ := hcf _ _ _ hcs
        refine ⟨d ++ c1, by rw [hsplit1, hc1, List.append_assoc], fun u => ?_⟩
        rw [readBody, hcl, List.append_assoc]
        simp only [hru1 (c1 ++ u)]
        simp only [hcu1 u]
    · simp at h
    · simp at h
  · -- brk
    simp at h
  · -- unrec
    simp at h

/-- A successful Read consumed a nonempty prefix of the source and
reads the same item from that prefix whatever follows it. -/
theorem readF_frame (f : Nat) (s o r : Bytes)
    (h : readF f s = ⟨o, none, r⟩) :
    ∃ c, c ≠ [] ∧ s = c ++ r ∧ ∀ u, readF f (c ++ u) = ⟨o, none, u⟩ := by
  induction f generalizing s o r with
  | zero => simp [readF] at h
  | succ f ih =>
    match s with
    | [] => simp [readF] at h
    | t :: s1 =>
      rw [readF_cons] at h
      have hbf : ∀ s2 o2 r2, readF f s2 = ⟨o2, some .breakE, r2⟩ →
          ∃ t2, s2 = t2 :: r2 ∧ ∀ u, readF f (t2 :: u) = ⟨[], some .breakE, u⟩ := by
        intro s2 o2 r2 h2
        obtain ⟨ho2, t2, hs2, hcl2⟩ := readF_break f s2 o2 r2 h2
        refine ⟨t2, hs2, fun u => ?_⟩
        match f, h2 with
        | 0, h2 => simp [readF] at h2
        | f0 + 1, _ => exact readF_brk_eval hcl2 f0 u
      obtain ⟨c, hc, hcu⟩ :=
        readBody_frame (fun s2 o2 r2 h2 => ih s2 o2 r2 h2) hbf t s1 o r h
      refine ⟨t :: c, by simp, by rw [hc]; rfl, fun u => ?_⟩
      rw [List.cons_append, readF_cons]
      exact hcu u

/-- Claim C8 as amended: when Read accepts B consuming it entirely,
Read fails on every proper prefix of B, and Read of the empty source
fails with the source EOF (the MissingTag condition).  The error-kind
attribution of the original claim is settled by the counterexample
theorem: a zero-octet shortfall surfaces the wrapped EOF, not
ErrorMissingData. -/
theorem read_truncation_fails (B o : Bytes) (hB : read B = ⟨o, none, []⟩)
    (P : Bytes) (hpre : P <+: B) (hne : P ≠ B) :
    ((read P).err).isSome = true ∧ read [] = ⟨[], some Err.eofE, []⟩ := by
  refine ⟨?_, rfl⟩
  obtain ⟨suf, rfl⟩ := hpre
  rcases hrp : read P with ⟨o1, e1, r1⟩
  cases e1 with
  | some e => rfl
  | none =>
    exfalso
    obtain ⟨c, hcne, hcP, hcu⟩ := readF_frame (P.length + 1) P o1 r1 hrp
    have h2 : readF (P.length + 1) (P ++ suf) = ⟨o1, none, r1 ++ suf⟩ := by
      rw [show P ++ suf = c ++ (r1 ++ suf) from by rw [hcP, List.append_assoc]]
      exact hcu (r1 ++ suf)
    have h3 : readF ((P ++ suf).length + 1) (P ++ suf) = ⟨o1, none, r1 ++ suf⟩ :=
      readF_mono_le (by rw [List.length_append]; omega) h2
    have h4 : readF ((P ++ suf).length + 1) (P ++ suf) = ⟨o, none, []⟩ := hB
    rw [h4, RRes.mk.injEq] at h3
    obtain ⟨_, _, hr⟩ := h3
    have hsuf : suf = [] := (List.append_eq_nil.mp hr.symm).2
    exact hne (by rw [hsuf, List.append_nil])

/-- Witness for claim C8 at B = 0x00 and its empty proper prefix. -/
theorem read_truncation_fails_witness :
    read [0x00] = ⟨[0x00], none, []⟩ ∧ ([] : Bytes) <+: [0x00] ∧ ([] : Bytes) ≠ [0x00] ∧
    ((read ([] : Bytes)).err).isSome = true ∧ read [] = ⟨[], some Err.eofE, []⟩ := by
  refine ⟨rfl, ⟨[0x00], rfl⟩, by decide, ?_, ?_⟩
  · exact (read_truncation_fails [0x00] [0x00] rfl [] ⟨[0x00], rfl⟩ (by decide)).1
  · exact (read_truncation_fails [0x00] [0x00] rfl [] ⟨[0x00], rfl⟩ (by decide)).2

end GoCbor
